import Mathlib

/-!
Verification development for scripts/linkedin_photo_prepare.py.

The script is a linear image pipeline: background keying, gradient
background generation, alpha compositing, face detection, and a
procedurally drawn tie. We embed each function shallowly:

- images are width/height records with a total pixel function;
- uint8 stores are modelled with explicit mod 256;
- Python float scalings such as int(h * 0.42) are modelled as exact
  rational floors, here h * 42 / 100 in natural-number division;
- calls into external libraries (the OpenCV mask pipeline, the Haar
  cascade detector, the LANCZOS resampler) are parameters of the
  embedded functions, since their code is not part of the repository;
- Image.alpha_composite is embedded with the exact fixed-point integer
  arithmetic of the Pillow over-operator implementation;
- PIL image handles are modelled by an explicit heap (a list of image
  records addressed by index), so that copy-before-draw is observable.
-/

/-- A pixel with red, green, blue and alpha channels (uint8 values). -/
structure RGBA where
  r : Nat
  g : Nat
  b : Nat
  a : Nat
  deriving DecidableEq

/-- A pixel with red, green and blue channels (uint8 values). -/
structure RGB where
  r : Nat
  g : Nat
  b : Nat
  deriving DecidableEq

/-- An RGB image: dimensions plus a total pixel function (row, column). -/
structure ImgRGB where
  width : Nat
  height : Nat
  pix : Nat → Nat → RGB

/-- An RGBA image: dimensions plus a total pixel function (row, column). -/
structure ImgRGBA where
  width : Nat
  height : Nat
  pix : Nat → Nat → RGBA

/-- Interpolation divisor of the gradient: max(1, height - 1), line 56. -/
def gradientDenom (height : Nat) : Nat := max 1 (height - 1)

/-- The exact real-number interpolation that lines 55-58 of the script
approximate: t = row / max(1, height - 1) and (1 - t) * a + t * b,
truncated, computed as the exact rational ((d - row) * a + row * b) / d
whose truncation is natural division. This is the ideal two-stop
gradient; the bit-accurate float32 computation the program performs is
gradientChannelFl below, and the two agree at row 0 and for height 1,
where the float path is exact. -/
def gradientChannel (a b height row : Nat) : Nat :=
  ((gradientDenom height - row) * a + row * b) / gradientDenom height

/-- Default top color of the gradient, line 47. -/
def top_color_default : RGB := ⟨234, 243, 255⟩

/-- Default bottom color of the gradient, line 48. -/
def bottom_color_default : RGB := ⟨191, 215, 255⟩

/-- generate_linkedin_gradient_background, lines 46-60: every row is the
same interpolated color across all columns, alpha interpolates 255 to
255. -/
def generate_linkedin_gradient_background (width height : Nat)
    (top_color bottom_color : RGB) : ImgRGBA :=
  { width := width
    height := height
    pix := fun row _col =>
      ⟨gradientChannel top_color.r bottom_color.r height row,
       gradientChannel top_color.g bottom_color.g height row,
       gradientChannel top_color.b bottom_color.b height row,
       gradientChannel 255 255 height row⟩ }

/-- remove_background_keep_subject, lines 63-108. The whole cv2 chain
(HSV thresholding of the two red hue bands, morphological close, open
and dilate, inversion, Gaussian feathering) happens outside the
repository, so the feathered subject mask is a parameter; the function
itself stacks the unchanged R, G, B planes of the RGB-converted input
with the mask as alpha (uint8 store modelled by mod 256). -/
def remove_background_keep_subject (subjMask : ImgRGB → Nat → Nat → Nat)
    (image : ImgRGB) : ImgRGBA :=
  { width := image.width
    height := image.height
    pix := fun row col =>
      ⟨(image.pix row col).r,
       (image.pix row col).g,
       (image.pix row col).b,
       subjMask image row col % 256⟩ }

/-- SHIFTFORDIV255 of the Pillow AlphaComposite implementation:
an integer approximation of division by 255. -/
def shiftForDiv255 (a : Nat) : Nat := ((a >>> 8) + a) >>> 8

/-- One output pixel of Image.alpha_composite (Pillow AlphaComposite.c,
PRECISION_BITS = 7), called at line 197 of the script. dst is the
background pixel, src the subject pixel. -/
def alphaCompositePixel (dst src : RGBA) : RGBA :=
  if src.a = 0 then dst
  else
    let blend := dst.a * (255 - src.a)
    let outa255 := src.a * 255 + blend
    let coef1 := src.a * 255 * 255 * 128 / outa255
    let coef2 := 255 * 128 - coef1
    { r := (shiftForDiv255 (src.r * coef1 + dst.r * coef2 + 128 * 128) >>> 7) % 256
      g := (shiftForDiv255 (src.g * coef1 + dst.g * coef2 + 128 * 128) >>> 7) % 256
      b := (shiftForDiv255 (src.b * coef1 + dst.b * coef2 + 128 * 128) >>> 7) % 256
      a := shiftForDiv255 (outa255 + 128) % 256 }

/-- Image.alpha_composite over whole images of equal size. -/
def alphaComposite (bg subj : ImgRGBA) : ImgRGBA :=
  { width := bg.width
    height := bg.height
    pix := fun row col => alphaCompositePixel (bg.pix row col) (subj.pix row col) }

/-- The subject actually composited in compose_subject_on_background,
lines 195-196: unchanged when the sizes already agree, otherwise the
LANCZOS resize (a library call, hence the resize parameter) to the
background dimensions. -/
def composedSubject (resize : ImgRGBA → Nat × Nat → ImgRGBA)
    (subject_rgba background_rgba : ImgRGBA) : ImgRGBA :=
  if subject_rgba.width = background_rgba.width ∧
      subject_rgba.height = background_rgba.height then subject_rgba
  else resize subject_rgba (background_rgba.width, background_rgba.height)

/-- compose_subject_on_background, lines 192-198: reconcile sizes, then
alpha-composite the subject over the background. -/
def compose_subject_on_background (resize : ImgRGBA → Nat × Nat → ImgRGBA)
    (subject_rgba background_rgba : ImgRGBA) : ImgRGBA :=
  alphaComposite background_rgba (composedSubject resize subject_rgba background_rgba)

/-- A detected rectangle (x, y, w, h) as returned by detectMultiScale. -/
abbrev Rect := Nat × Nat × Nat × Nat

/-- Bounding-box area w * h, the key of line 123. -/
def rectArea (f : Rect) : Nat := f.2.2.1 * f.2.2.2

/-- The configuration passed to detectMultiScale at lines 118-119. -/
structure DetectParams where
  scaleFactor : Rat
  minNeighbors : Nat
  minSize : Nat × Nat
  deriving DecidableEq

/-- scaleFactor=1.1, minNeighbors=5, minSize=(80, 80), lines 118-119. -/
def haarParams : DetectParams := ⟨11 / 10, 5, (80, 80)⟩

/-- FaceBox, lines 34-39. -/
structure FaceBox where
  x : Nat
  y : Nat
  width : Nat
  height : Nat
  deriving DecidableEq

/-- The center_bottom property, lines 41-43:
(x + width // 2, int(y + height * 0.95)). -/
def FaceBox.center_bottom (fb : FaceBox) : Nat × Nat :=
  (fb.x + fb.width / 2, fb.y + fb.height * 95 / 100)

/-- The Python max(faces, key=area) of line 123: a left fold keeping the
first rectangle of maximal area. -/
def largestFace (f : Rect) (fs : List Rect) : Rect :=
  fs.foldl (fun best g => if rectArea g > rectArea best then g else best) f

/-- detect_primary_face_bbox, lines 111-124. The pretrained Haar cascade
is a library component, so the detector is a parameter taking the
configuration actually passed; grayscale conversion happens inside the
detector parameter. Absence of faces yields none; otherwise the largest
face is selected. -/
def detect_primary_face_bbox (detectMultiScale : DetectParams → List Rect) :
    Option FaceBox :=
  match detectMultiScale haarParams with
  | [] => none
  | f :: fs =>
    let r := largestFace f fs
    some ⟨r.1, r.2.1, r.2.2.1, r.2.2.2⟩

/-- A polygon drawing operation of ImageDraw: points, fill, outline. -/
structure Polygon where
  points : List (Int × Int)
  fill : RGBA
  outline : Option RGBA
  deriving DecidableEq

/-- An image record behind a PIL handle: dimensions, base pixel content,
and the list of polygon operations drawn on top of it. -/
structure ImgData where
  width : Nat
  height : Nat
  base : Nat → Nat → RGBA
  ops : List Polygon

/-- Default image record used by the total heap lookup. -/
def imgDefault : ImgData := ⟨0, 0, fun _ _ => ⟨0, 0, 0, 0⟩, []⟩

/-- Tie anchor and assumed face height, lines 133-140: the fallback of
lines 134-137 when no face box is available, otherwise center_bottom
and the detected face height. -/
def tieAnchor (w h : Nat) (face_box : Option FaceBox) : Nat × Nat × Nat :=
  match face_box with
  | none => (w / 2, h * 42 / 100, h * 22 / 100)
  | some fb => (fb.center_bottom.1, fb.center_bottom.2, fb.height)

/-- All geometry computed by draw_tie, lines 133-186, for an image of
width w and height h. Every int(x * c) scaling of a float constant is
the exact rational floor. -/
structure TieGeom where
  cx : Nat
  cy : Nat
  face_height : Nat
  knot_height : Nat
  knot_width : Nat
  tie_length : Nat
  tie_bottom_width : Nat
  knot_top_y : Nat
  knot_bottom_y : Nat
  half_knot_w : Nat
  tip_y : Int
  blade_half_top : Nat
  blade_half_bottom : Nat
  knot_points : List (Int × Int)
  blade_points : List (Int × Int)
  highlight_poly : List (Int × Int)

/-- The geometry of draw_tie, translated from lines 133-186. -/
def tieGeom (w h : Nat) (face_box : Option FaceBox) : TieGeom :=
  let anchor := tieAnchor w h face_box
  let cx := anchor.1
  let cy := anchor.2.1
  let face_height := anchor.2.2
  let knot_height := max 12 (face_height * 12 / 100)
  let knot_width := max 16 (face_height * 16 / 100)
  let tie_length := max (h * 20 / 100) (face_height * 120 / 100)
  let tie_bottom_width := max 26 (knot_width * 160 / 100)
  let knot_top_y := cy + face_height * 2 / 100
  let knot_bottom_y := knot_top_y + knot_height
  let half_knot_w := knot_width / 2
  let tip_y : Int := min ((h : Int) - 6) ((knot_bottom_y : Int) + (tie_length : Int))
  let blade_half_top := knot_width * 6 / 10
  let blade_half_bottom := tie_bottom_width / 2
  { cx := cx
    cy := cy
    face_height := face_height
    knot_height := knot_height
    knot_width := knot_width
    tie_length := tie_length
    tie_bottom_width := tie_bottom_width
    knot_top_y := knot_top_y
    knot_bottom_y := knot_bottom_y
    half_knot_w := half_knot_w
    tip_y := tip_y
    blade_half_top := blade_half_top
    blade_half_bottom := blade_half_bottom
    knot_points :=
      [((cx : Int) - (half_knot_w : Int), (knot_top_y : Int)),
       ((cx : Int) + (half_knot_w : Int), (knot_top_y : Int)),
       ((cx : Int) + ((half_knot_w * 7 / 10 : Nat) : Int), (knot_bottom_y : Int)),
       ((cx : Int) - ((half_knot_w * 7 / 10 : Nat) : Int), (knot_bottom_y : Int))]
    blade_points :=
      [((cx : Int) - (blade_half_top : Int), (knot_bottom_y : Int)),
       ((cx : Int) + (blade_half_top : Int), (knot_bottom_y : Int)),
       ((cx : Int) + (blade_half_bottom : Int), tip_y - ((tie_bottom_width * 4 / 10 : Nat) : Int)),
       ((cx : Int), tip_y),
       ((cx : Int) - (blade_half_bottom : Int), tip_y - ((tie_bottom_width * 4 / 10 : Nat) : Int))]
    highlight_poly :=
      [((cx : Int) - (blade_half_top : Int) + 1, (knot_bottom_y : Int) + 2),
       ((cx : Int) - (blade_half_top : Int) + 1, tip_y - ((tie_bottom_width * 45 / 100 : Nat) : Int)),
       ((cx : Int) - 2, tip_y - 4),
       ((cx : Int) - 2, (knot_bottom_y : Int) + 2)] }

/-- Tie fill color, line 149. -/
def navy : RGBA := ⟨10, 42, 102, 255⟩

/-- Tie outline color, line 150. -/
def navy_dark : RGBA := ⟨6, 26, 64, 255⟩

/-- Translucent highlight color, line 151. -/
def highlight : RGBA := ⟨255, 255, 255, 60⟩

/-- The three polygon operations issued by draw_tie, lines 164, 178, 187:
knot, blade, highlight. -/
def tieOps (g : TieGeom) : List Polygon :=
  [⟨g.knot_points, navy, some navy_dark⟩,
   ⟨g.blade_points, navy, some navy_dark⟩,
   ⟨g.highlight_poly, highlight, none⟩]

/-- draw_tie, lines 127-189, over the image heap. The function copies
the image behind the handle (line 129), draws the three tie polygons on
the copy, and returns the fresh handle; the original record is left in
place. -/
def draw_tie (heap : List ImgData) (image_rgba : Nat) (face_box : Option FaceBox) :
    List ImgData × Nat :=
  let image := heap.getD image_rgba imgDefault
  let img : ImgData :=
    { image with ops := image.ops ++ tieOps (tieGeom image.width image.height face_box) }
  (heap ++ [img], heap.length)

/-- Truthiness of an optional integer CLI argument, as Python sees it in
the conditions of lines 206-208: None and 0 are falsy. -/
def pyTruthy (o : Option Nat) : Bool :=
  match o with
  | none => false
  | some v => v != 0

/-- The Python expression a or b for an optional integer a: b when a is
None or 0, otherwise the value of a. -/
def pyOrNat (o : Option Nat) (b : Nat) : Nat :=
  match o with
  | none => b
  | some v => if v = 0 then b else v

/-!
## Exact binary floating-point model

The script computes the gradient rows in numpy float32 and the resize
targets in Python double precision, so those two functions are embedded
bit-accurately. A finite binary float is an exact dyadic rational,
represented by an integer mantissa and exponent; rounding to nearest
with ties to even at a given precision is pure integer arithmetic, so
every concrete run of the model evaluates inside the kernel.
-/

/-- Fuel-driven floor of the base-2 logarithm (fuel at least n makes it
exact); structural recursion so that the kernel can evaluate it. -/
def natLog2F : Nat → Nat → Nat
  | 0, _ => 0
  | fuel + 1, n => if n < 2 then 0 else natLog2F fuel (n / 2) + 1

/-- Floor of the base-2 logarithm of a positive natural number. -/
def natLog2 (n : Nat) : Nat := natLog2F n n

/-- An exact dyadic rational m * 2 ^ e: the value of a finite binary
floating-point number. -/
structure Dyadic where
  m : Int
  e : Int
  deriving DecidableEq

/-- The rational value m * 2 ^ e of a dyadic. -/
def Dyadic.val (x : Dyadic) : ℚ := (x.m : ℚ) * 2 ^ x.e

/-- Exact sum of two dyadics (align exponents, add mantissas). -/
def Dyadic.add (x y : Dyadic) : Dyadic :=
  if x.e ≤ y.e then ⟨x.m + y.m * ((2 ^ (y.e - x.e).toNat : Nat) : Int), x.e⟩
  else ⟨x.m * ((2 ^ (x.e - y.e).toNat : Nat) : Int) + y.m, y.e⟩

/-- Exact negation of a dyadic. -/
def Dyadic.neg (x : Dyadic) : Dyadic := ⟨-x.m, x.e⟩

/-- Exact difference of two dyadics. -/
def Dyadic.sub (x y : Dyadic) : Dyadic := Dyadic.add x (Dyadic.neg y)

/-- Exact product of two dyadics. -/
def Dyadic.mul (x y : Dyadic) : Dyadic := ⟨x.m * y.m, x.e + y.e⟩

/-- Nearest integer to N / D with ties to even (the IEEE tie rule). -/
def roundHalfEvenDiv (N D : Nat) : Nat :=
  let q := N / D
  let r := N % D
  if 2 * r < D then q
  else if D < 2 * r then q + 1
  else if q % 2 = 0 then q else q + 1

/-- Decides n / d < 2 ^ c by integer comparison. -/
def ratLtPow2 (n d : Nat) (c : Int) : Bool :=
  if 0 ≤ c then decide (n < d * 2 ^ c.toNat) else decide (n * 2 ^ (-c).toNat < d)

/-- Floor of the base-2 logarithm of n / d (for positive n, d). -/
def ratFloorLog2 (n d : Nat) : Int :=
  let c : Int := (natLog2 n : Int) - (natLog2 d : Int)
  if ratLtPow2 n d c then c - 1 else c

/-- Correct rounding of the positive rational n / d to a binary float
of precision p (round to nearest, ties to even), as performed by an
exact floating-point division of integer operands. -/
def roundRatPos (p n d : Nat) : Dyadic :=
  let L := ratFloorLog2 n d
  let e := L - (p - 1 : Nat)
  if 0 ≤ e then ⟨(roundHalfEvenDiv n (d * 2 ^ e.toNat) : Nat), e⟩
  else ⟨(roundHalfEvenDiv (n * 2 ^ (-e).toNat) d : Nat), e⟩

/-- Correct rounding of the positive dyadic m * 2 ^ e to precision p. -/
def roundPosDyadic (p : Nat) (m : Nat) (e : Int) : Dyadic :=
  let enew : Int := (natLog2 m : Int) + e - (p - 1 : Nat)
  if enew ≤ e then ⟨(m * 2 ^ (e - enew).toNat : Nat), enew⟩
  else ⟨(roundHalfEvenDiv m (2 ^ (enew - e).toNat) : Nat), enew⟩

/-- Correct rounding of a dyadic to precision p (p = 53 is an IEEE
double operation, p = 24 a float32 operation). -/
def Dyadic.round (p : Nat) (x : Dyadic) : Dyadic :=
  if x.m = 0 then ⟨0, 0⟩
  else if 0 < x.m then roundPosDyadic p x.m.toNat x.e
  else Dyadic.neg (roundPosDyadic p (-x.m).toNat x.e)

/-- Truncation toward zero to a natural number, the effect of the
astype(np.uint8) store and of int() on the nonnegative values the
script produces (nonpositive values are clamped to 0; the script never
reaches them). -/
def Dyadic.truncNat (x : Dyadic) : Nat :=
  if x.m ≤ 0 then 0
  else if 0 ≤ x.e then x.m.toNat * 2 ^ x.e.toNat
  else x.m.toNat / 2 ^ (-x.e).toNat

/-- One channel of one gradient row, lines 55-58, bit-accurately:
t = row / max(1, height - 1) is a correctly rounded double division of
exact integers; 1 - t is a double subtraction; numpy multiplies the
python scalar with the float32 array elements in float32 after casting
the scalar (and the stored array elements) to float32, adds the two
arrays in float32, and the astype(np.uint8) store truncates. -/
def gradientChannelFl (a b height row : Nat) : Nat :=
  let t := roundRatPos 53 row (gradientDenom height)
  let omt := Dyadic.round 53 (Dyadic.sub ⟨1, 0⟩ t)
  let term1 := Dyadic.round 24 (Dyadic.mul (Dyadic.round 24 omt) (Dyadic.round 24 ⟨(a : Int), 0⟩))
  let term2 := Dyadic.round 24 (Dyadic.mul (Dyadic.round 24 t) (Dyadic.round 24 ⟨(b : Int), 0⟩))
  Dyadic.truncNat (Dyadic.round 24 (Dyadic.add term1 term2))

/-- generate_linkedin_gradient_background, lines 46-60, with the
bit-accurate float32 row interpolation of gradientChannelFl; the alpha
plane interpolates 255 to 255 through the same arithmetic. -/
def generate_linkedin_gradient_background_fl (width height : Nat)
    (top_color bottom_color : RGB) : ImgRGBA :=
  { width := width
    height := height
    pix := fun row _col =>
      ⟨gradientChannelFl top_color.r bottom_color.r height row,
       gradientChannelFl top_color.g bottom_color.g height row,
       gradientChannelFl top_color.b bottom_color.b height row,
       gradientChannelFl 255 255 height row⟩ }

/-- The derived resize dimension of lines 207-208, bit-accurately:
int(other * (req / orig)) where req / orig is a correctly rounded
double division of exact integers, other is converted to double, the
product is a double multiplication, and int() truncates toward zero. -/
def derivedDim (orig other req : Nat) : Nat :=
  Dyadic.truncNat (Dyadic.round 53 (Dyadic.mul (Dyadic.round 53 ⟨(other : Int), 0⟩)
    (roundRatPos 53 req orig)))

/-- The resize-target computation of process, lines 206-209: when some
dimension is requested (Python truthiness), the missing one is derived
by the double-precision computation of derivedDim. Returns none when no
resize is requested. -/
def resizeTarget (origW origH : Nat) (width height : Option Nat) :
    Option (Nat × Nat) :=
  if pyTruthy width || pyTruthy height then
    some (pyOrNat width (derivedDim origH origW (height.getD 0)),
          pyOrNat height (derivedDim origW origH (width.getD 0)))
  else none

/-! ## Helper lemmas -/

theorem gradientDenom_pos (height : Nat) : 0 < gradientDenom height :=
  Nat.lt_of_lt_of_le Nat.zero_lt_one (le_max_left 1 (height - 1))

theorem gradientChannel_zero (a b height : Nat) : gradientChannel a b height 0 = a := by
  unfold gradientChannel
  rw [Nat.sub_zero, Nat.zero_mul, Nat.add_zero, Nat.mul_comm,
    Nat.mul_div_cancel a (gradientDenom_pos height)]

theorem gradientChannel_last (a b height : Nat) (hh : 2 ≤ height) :
    gradientChannel a b height (height - 1) = b := by
  have hd : gradientDenom height = height - 1 := by
    unfold gradientDenom
    omega
  unfold gradientChannel
  rw [hd, Nat.sub_self, Nat.zero_mul, Nat.zero_add, Nat.mul_comm,
    Nat.mul_div_cancel b (by omega)]

theorem gradientChannel_mono_of_le (a b height r1 r2 : Nat) (h12 : r1 ≤ r2)
    (h2 : r2 < height) (hab : a ≤ b) :
    gradientChannel a b height r1 ≤ gradientChannel a b height r2 := by
  unfold gradientChannel
  apply Nat.div_le_div_right
  have h2d : r2 ≤ gradientDenom height := by
    unfold gradientDenom
    omega
  have hsplit : gradientDenom height - r1 = (gradientDenom height - r2) + (r2 - r1) := by
    omega
  rw [hsplit, Nat.add_mul]
  have hstep : (r2 - r1) * a + r1 * b ≤ r2 * b := by
    calc (r2 - r1) * a + r1 * b ≤ (r2 - r1) * b + r1 * b :=
          Nat.add_le_add_right (Nat.mul_le_mul_left (r2 - r1) hab) (r1 * b)
      _ = r2 * b := by rw [← Nat.add_mul]; congr 1; omega
  omega

theorem gradientChannel_anti_of_ge (a b height r1 r2 : Nat) (h12 : r1 ≤ r2)
    (h2 : r2 < height) (hba : b ≤ a) :
    gradientChannel a b height r2 ≤ gradientChannel a b height r1 := by
  unfold gradientChannel
  apply Nat.div_le_div_right
  have h2d : r2 ≤ gradientDenom height := by
    unfold gradientDenom
    omega
  have hsplit : gradientDenom height - r1 = (gradientDenom height - r2) + (r2 - r1) := by
    omega
  rw [hsplit, Nat.add_mul]
  have hstep : r2 * b ≤ (r2 - r1) * a + r1 * b := by
    calc r2 * b = (r2 - r1) * b + r1 * b := by rw [← Nat.add_mul]; congr 1; omega
      _ ≤ (r2 - r1) * a + r1 * b :=
          Nat.add_le_add_right (Nat.mul_le_mul_left (r2 - r1) hba) (r1 * b)
  omega

/-- Both directions of per-channel monotonicity between two rows. -/
def monotoneBetween (a b x y : Nat) : Prop := (a ≤ b → x ≤ y) ∧ (b ≤ a → y ≤ x)

/-! ## C9: the gradient generator at height 1 -/

/-- C9: the interpolation divisor is floored at 1 for every height, and
for height 1 the single row of the gradient is exactly the top color. -/
theorem gradient_height_one_top_only :
    (∀ h : Nat, 1 ≤ gradientDenom h) ∧
    (∀ (w : Nat) (top bottom : RGB) (col : Nat),
      (generate_linkedin_gradient_background w 1 top bottom).pix 0 col =
        ⟨top.r, top.g, top.b, 255⟩) := by
  refine ⟨fun h => gradientDenom_pos h, fun w top bottom col => ?_⟩
  show RGBA.mk _ _ _ _ = _
  rw [gradientChannel_zero, gradientChannel_zero, gradientChannel_zero,
    gradientChannel_zero]

/-! ## C1: compositing with a subject pixel of alpha 255 -/

theorem shiftForDiv255_channel_id (x : Nat) (hx : x < 256) :
    (shiftForDiv255 (x * 32640 + 16384)) >>> 7 = x := by
  unfold shiftForDiv255
  rw [Nat.shiftRight_eq_div_pow, Nat.shiftRight_eq_div_pow, Nat.shiftRight_eq_div_pow]
  norm_num
  omega

theorem alphaCompositePixel_full_alpha (dst src : RGBA) (ha : src.a = 255)
    (hr : src.r < 256) (hg : src.g < 256) (hb : src.b < 256) :
    alphaCompositePixel dst src = src := by
  obtain ⟨r, g, b, a⟩ := src
  simp only at ha hr hg hb
  subst ha
  unfold alphaCompositePixel
  norm_num
  refine ⟨?_, ?_, ?_, ?_⟩
  · rw [shiftForDiv255_channel_id r hr]
    exact Nat.mod_eq_of_lt hr
  · rw [shiftForDiv255_channel_id g hg]
    exact Nat.mod_eq_of_lt hg
  · rw [shiftForDiv255_channel_id b hb]
    exact Nat.mod_eq_of_lt hb
  · decide

/-- C1: at every pixel where the subject image (after the size
reconciliation step of compose_subject_on_background, for any resampler)
has alpha 255, the composite equals that subject pixel, so the RGB
values pass through unchanged. -/
theorem compose_identity_on_full_alpha (resize : ImgRGBA → Nat × Nat → ImgRGBA)
    (subj bg : ImgRGBA) (row col : Nat)
    (ha : ((composedSubject resize subj bg).pix row col).a = 255)
    (hr : ((composedSubject resize subj bg).pix row col).r < 256)
    (hg : ((composedSubject resize subj bg).pix row col).g < 256)
    (hb : ((composedSubject resize subj bg).pix row col).b < 256) :
    (compose_subject_on_background resize subj bg).pix row col =
      (composedSubject resize subj bg).pix row col :=
  alphaCompositePixel_full_alpha (bg.pix row col)
    ((composedSubject resize subj bg).pix row col) ha hr hg hb

/-- Identity resampler used by the C1 witness. -/
def resizeExample : ImgRGBA → Nat × Nat → ImgRGBA := fun img _ => img

/-- Concrete fully covering subject used by the C1 witness. -/
def subjectExample : ImgRGBA := ⟨1, 1, fun _ _ => ⟨10, 20, 30, 255⟩⟩

/-- Concrete background used by the C1 witness. -/
def backgroundExample : ImgRGBA := ⟨1, 1, fun _ _ => ⟨1, 2, 3, 255⟩⟩

/-- Witness for C1 on concrete one-pixel images. -/
theorem compose_identity_on_full_alpha_witness :
    (compose_subject_on_background resizeExample subjectExample backgroundExample).pix 0 0 =
      (composedSubject resizeExample subjectExample backgroundExample).pix 0 0 :=
  compose_identity_on_full_alpha resizeExample subjectExample backgroundExample 0 0
    (by decide) (by decide) (by decide) (by decide)

/-! ## C3: face detection -/

theorem largestFace_cons (f x : Rect) (xs : List Rect) :
    largestFace f (x :: xs) =
      largestFace (if rectArea x > rectArea f then x else f) xs := by
  unfold largestFace
  rw [List.foldl_cons]

theorem le_largestFace_acc (f : Rect) (fs : List Rect) :
    rectArea f ≤ rectArea (largestFace f fs) := by
  induction fs generalizing f with
  | nil => exact Nat.le_refl _
  | cons x xs ih =>
    rw [largestFace_cons]
    by_cases hgt : rectArea x > rectArea f
    · rw [if_pos hgt]
      exact Nat.le_trans (Nat.le_of_lt hgt) (ih x)
    · rw [if_neg hgt]
      exact ih f

theorem largestFace_mem (f : Rect) (fs : List Rect) : largestFace f fs ∈ f :: fs := by
  induction fs generalizing f with
  | nil => exact List.mem_singleton.mpr rfl
  | cons x xs ih =>
    rw [largestFace_cons]
    by_cases hgt : rectArea x > rectArea f
    · rw [if_pos hgt]
      have := ih x
      simp only [List.mem_cons] at this ⊢
      tauto
    · rw [if_neg hgt]
      have := ih f
      simp only [List.mem_cons] at this ⊢
      tauto

theorem largestFace_max (f : Rect) (fs : List Rect) :
    ∀ g ∈ f :: fs, rectArea g ≤ rectArea (largestFace f fs) := by
  induction fs generalizing f with
  | nil =>
    intro g hg
    rw [List.mem_singleton] at hg
    rw [hg]
    exact Nat.le_refl _
  | cons x xs ih =>
    intro g hg
    rw [largestFace_cons]
    simp only [List.mem_cons] at hg
    by_cases hgt : rectArea x > rectArea f
    · rw [if_pos hgt]
      rcases hg with hg | hg | hg
      · rw [hg]
        exact Nat.le_trans (Nat.le_of_lt hgt) (le_largestFace_acc x xs)
      · rw [hg]
        exact le_largestFace_acc x xs
      · exact ih x g (List.mem_cons_of_mem x hg)
    · rw [if_neg hgt]
      rcases hg with hg | hg | hg
      · rw [hg]
        exact le_largestFace_acc f xs
      · rw [hg]
        exact Nat.le_trans (Nat.le_of_not_lt hgt) (le_largestFace_acc f xs)
      · exact ih f g (List.mem_cons_of_mem f hg)

/-- C3: with the detector called at the configuration of the source
(minSize (80, 80), minNeighbors 5, scaleFactor 11/10),
detect_primary_face_bbox returns none exactly when the detector returns
no faces, and any returned box is one of the detected rectangles of
maximal area (width times height). -/
theorem detect_none_or_largest (detectMultiScale : DetectParams → List Rect) :
    (detect_primary_face_bbox detectMultiScale = none ↔
      detectMultiScale ⟨11 / 10, 5, (80, 80)⟩ = []) ∧
    (∀ fb : FaceBox, detect_primary_face_bbox detectMultiScale = some fb →
      (fb.x, fb.y, fb.width, fb.height) ∈ detectMultiScale ⟨11 / 10, 5, (80, 80)⟩ ∧
      ∀ g ∈ detectMultiScale ⟨11 / 10, 5, (80, 80)⟩, rectArea g ≤ fb.width * fb.height) := by
  have hp : (⟨11 / 10, 5, (80, 80)⟩ : DetectParams) = haarParams := rfl
  rw [hp]
  unfold detect_primary_face_bbox
  cases hfaces : detectMultiScale haarParams with
  | nil =>
    refine ⟨by simp, fun fb hfb => ?_⟩
    simp at hfb
  | cons f fs =>
    refine ⟨by simp, fun fb hfb => ?_⟩
    simp only [Option.some.injEq] at hfb
    have hrect : (fb.x, fb.y, fb.width, fb.height) = largestFace f fs := by
      rw [← hfb]
    constructor
    · rw [hrect, ← hfaces]
      exact hfaces ▸ largestFace_mem f fs
    · intro g hg
      have harea : fb.width * fb.height = rectArea (largestFace f fs) := by
        rw [← hfb]
        rfl
      rw [harea]
      exact largestFace_max f fs g (hfaces ▸ hg)

/-- Concrete detector used by the C3 witness: two faces, the second one
larger. -/
def detectExample : DetectParams → List Rect :=
  fun _ => [(0, 0, 90, 90), (5, 5, 100, 100)]

/-- Witness for C3: the selected box is the larger detected rectangle
and dominates the area of the other one. -/
theorem detect_none_or_largest_witness :
    ((5 : Nat), (5 : Nat), (100 : Nat), (100 : Nat)) ∈ detectExample ⟨11 / 10, 5, (80, 80)⟩ ∧
    rectArea (0, 0, 90, 90) ≤ 100 * 100 :=
  ⟨((detect_none_or_largest detectExample).2 ⟨5, 5, 100, 100⟩ rfl).1,
   ((detect_none_or_largest detectExample).2 ⟨5, 5, 100, 100⟩ rfl).2 (0, 0, 90, 90)
     (by decide)⟩

/-! ## C4, C5, C6, C10: tie drawing -/

theorem getD_append_left {α : Type} (l l2 : List α) (d : α) (n : Nat)
    (h : n < l.length) : (l ++ l2).getD n d = l.getD n d := by
  unfold List.getD
  rw [List.get?_append h]

/-- C5 counterexample: the blade length is not a function of the face
height alone. Two calls with the same face box (face height 10) on
images of heights 100 and 200 produce different blade lengths (20 and
40), so the blade-length dimension has no fixed minimum pixel floor. -/
theorem tie_length_not_face_height_function :
    (tieGeom 100 100 (some ⟨0, 0, 10, 10⟩)).face_height =
      (tieGeom 100 200 (some ⟨0, 0, 10, 10⟩)).face_height ∧
    (tieGeom 100 100 (some ⟨0, 0, 10, 10⟩)).tie_length = 20 ∧
    (tieGeom 100 200 (some ⟨0, 0, 10, 10⟩)).tie_length = 40 := by
  refine ⟨rfl, ?_, ?_⟩ <;> decide

/-- C5 (amended): knot height and knot width equal fixed proportions of
the face height with fixed pixel floors (12 and 16), the blade bottom
width is a fixed proportion of the knot width floored at 26, and the
blade length is the maximum of two proportional terms: 20 percent of
the image height and 120 percent of the face height, so its lower
bound scales with the image height instead of a fixed pixel constant.
In particular knot height = max(12, floor(0.12 face height)) is at
least 12. -/
theorem tie_dimension_formulas (w h : Nat) (fb : Option FaceBox) :
    (tieGeom w h fb).knot_height =
      max 12 ((tieGeom w h fb).face_height * 12 / 100) ∧
    12 ≤ (tieGeom w h fb).knot_height ∧
    (tieGeom w h fb).knot_width =
      max 16 ((tieGeom w h fb).face_height * 16 / 100) ∧
    16 ≤ (tieGeom w h fb).knot_width ∧
    (tieGeom w h fb).tie_bottom_width =
      max 26 ((tieGeom w h fb).knot_width * 160 / 100) ∧
    26 ≤ (tieGeom w h fb).tie_bottom_width ∧
    (tieGeom w h fb).tie_length =
      max (h * 20 / 100) ((tieGeom w h fb).face_height * 120 / 100) :=
  ⟨rfl, le_max_left 12 _, rfl, le_max_left 16 _, rfl, le_max_left 26 _, rfl⟩

/-- C6: the blade tip (fourth blade point) sits at the clipped
y-coordinate, which never exceeds h - 6 for any image height h and any
face region, detected or fallback. -/
theorem blade_tip_clipped (w h : Nat) (fb : Option FaceBox) :
    (tieGeom w h fb).tip_y ≤ (h : Int) - 6 ∧
    (tieGeom w h fb).blade_points.getD 3 (0, 0) =
      (((tieGeom w h fb).cx : Int), (tieGeom w h fb).tip_y) :=
  ⟨min_le_left _ _, rfl⟩

/-- C10: draw_tie allocates a fresh handle for the copy it draws on;
the record behind the handle given by the caller is unchanged and the
returned handle is distinct from it. -/
theorem draw_tie_no_mutation (heap : List ImgData) (image_rgba : Nat)
    (fb : Option FaceBox) (h : image_rgba < heap.length) :
    (draw_tie heap image_rgba fb).1.getD image_rgba imgDefault =
      heap.getD image_rgba imgDefault ∧
    (draw_tie heap image_rgba fb).2 = heap.length ∧
    image_rgba ≠ (draw_tie heap image_rgba fb).2 := by
  refine ⟨?_, rfl, ?_⟩
  · unfold draw_tie
    exact getD_append_left heap _ imgDefault image_rgba h
  · show image_rgba ≠ heap.length
    omega

/-- Concrete one-image heap used by the C10 witness. -/
def heapExample : List ImgData := [⟨3, 3, fun _ _ => ⟨0, 0, 0, 0⟩, []⟩]

/-- Witness for C10 on a concrete one-image heap. -/
theorem draw_tie_no_mutation_witness :
    (draw_tie heapExample 0 none).1.getD 0 imgDefault =
      heapExample.getD 0 imgDefault ∧
    (draw_tie heapExample 0 none).2 = heapExample.length ∧
    0 ≠ (draw_tie heapExample 0 none).2 :=
  draw_tie_no_mutation heapExample 0 none (by decide)

/-! ## C7: proportional resize targets in process -/

/-! ## C8: background removal preserves the RGB planes -/

/-- C8: for every feathered-mask pipeline and every input image, the
RGBA subject built by remove_background_keep_subject keeps the R, G and
B channels of the input pixel for pixel, along with the dimensions;
only the alpha channel is newly set. -/
theorem remove_background_preserves_rgb (subjMask : ImgRGB → Nat → Nat → Nat)
    (image : ImgRGB) :
    (remove_background_keep_subject subjMask image).width = image.width ∧
    (remove_background_keep_subject subjMask image).height = image.height ∧
    ∀ row col,
      ((remove_background_keep_subject subjMask image).pix row col).r =
        (image.pix row col).r ∧
      ((remove_background_keep_subject subjMask image).pix row col).g =
        (image.pix row col).g ∧
      ((remove_background_keep_subject subjMask image).pix row col).b =
        (image.pix row col).b :=
  ⟨rfl, rfl, fun _ _ => ⟨rfl, rfl, rfl⟩⟩

/-! ## Lemmas about the binary floating-point model -/

theorem natLog2F_bounds : ∀ fuel n : Nat, 1 ≤ n → n ≤ fuel →
    2 ^ natLog2F fuel n ≤ n ∧ n < 2 ^ (natLog2F fuel n + 1) := by
  intro fuel
  induction fuel with
  | zero => intro n h1 h2; omega
  | succ fuel ih =>
    intro n h1 h2
    unfold natLog2F
    by_cases hn : n < 2
    · rw [if_pos hn]
      exact ⟨by simpa using h1, by simpa using hn⟩
    · rw [if_neg hn]
      have hrec := ih (n / 2) (by omega) (by omega)
      constructor
      · calc 2 ^ (natLog2F fuel (n / 2) + 1) = 2 * 2 ^ natLog2F fuel (n / 2) := by ring
          _ ≤ n := by omega
      · calc n < 2 * 2 ^ (natLog2F fuel (n / 2) + 1) := by omega
          _ = 2 ^ (natLog2F fuel (n / 2) + 1 + 1) := by ring

theorem natLog2_bounds (n : Nat) (h1 : 1 ≤ n) :
    2 ^ natLog2 n ≤ n ∧ n < 2 ^ (natLog2 n + 1) :=
  natLog2F_bounds n n h1 (Nat.le_refl n)

theorem natLog2_eq_of (n c : Nat) (h1 : 2 ^ c ≤ n) (h2 : n < 2 ^ (c + 1)) :
    natLog2 n = c := by
  have hn : 1 ≤ n := Nat.le_trans (Nat.one_le_two_pow) h1
  have hb := natLog2_bounds n hn
  rcases Nat.lt_trichotomy (natLog2 n) c with h | h | h
  · have : 2 ^ (natLog2 n + 1) ≤ 2 ^ c := Nat.pow_le_pow_right (by norm_num) (by omega)
    omega
  · exact h
  · have : 2 ^ (c + 1) ≤ 2 ^ natLog2 n := Nat.pow_le_pow_right (by norm_num) (by omega)
    omega

theorem natLog2_mul_pow (n j : Nat) (h1 : 1 ≤ n) :
    natLog2 (n * 2 ^ j) = natLog2 n + j := by
  have hb := natLog2_bounds n h1
  apply natLog2_eq_of
  · calc 2 ^ (natLog2 n + j) = 2 ^ natLog2 n * 2 ^ j := by rw [pow_add]
      _ ≤ n * 2 ^ j := Nat.mul_le_mul_right _ hb.1
  · calc n * 2 ^ j < 2 ^ (natLog2 n + 1) * 2 ^ j :=
        Nat.mul_lt_mul_of_lt_of_le hb.2 (Nat.le_refl _) (by positivity)
      _ = 2 ^ (natLog2 n + j + 1) := by rw [← pow_add]; ring_nf

theorem natLog2_lt (n p : Nat) (h1 : 1 ≤ n) (h2 : n < 2 ^ p) : natLog2 n < p := by
  have hb := natLog2_bounds n h1
  by_contra hc
  have : 2 ^ p ≤ 2 ^ natLog2 n := Nat.pow_le_pow_right (by norm_num) (by omega)
  omega

theorem roundHalfEvenDiv_exact (N D : Nat) (hD : 0 < D) (hdvd : D ∣ N) :
    roundHalfEvenDiv N D = N / D := by
  obtain ⟨k, hk⟩ := hdvd
  subst hk
  have hm : D * k % D = 0 := Nat.mul_mod_right D k
  simp [roundHalfEvenDiv, hm, hD]

theorem roundHalfEvenDiv_abs (N D : Nat) (hD : 0 < D) :
    |((roundHalfEvenDiv N D : Nat) : ℚ) - (N : ℚ) / (D : ℚ)| ≤ 1 / 2 := by
  have hDq : (0:ℚ) < D := by exact_mod_cast hD
  have hNN : N / D * D + N % D = N := by
    rw [Nat.mul_comm]
    exact Nat.div_add_mod N D
  have hNq : (N : ℚ) = ((N / D : Nat) : ℚ) * (D : ℚ) + ((N % D : Nat) : ℚ) := by
    exact_mod_cast hNN.symm
  have hval : (N : ℚ) / D = ((N / D : Nat) : ℚ) + ((N % D : Nat) : ℚ) / D := by
    rw [hNq]
    field_simp
  have hrlow : (0:ℚ) ≤ ((N % D : Nat) : ℚ) / D := by positivity
  have hrhigh : ((N % D : Nat) : ℚ) / D < 1 := by
    rw [div_lt_one hDq]
    exact_mod_cast Nat.mod_lt N hD
  by_cases h1 : 2 * (N % D) < D
  · have hres : roundHalfEvenDiv N D = N / D := by simp [roundHalfEvenDiv, h1]
    have hhalf : ((N % D : Nat) : ℚ) / D ≤ 1 / 2 := by
      rw [div_le_div_iff hDq (by norm_num), one_mul]
      exact_mod_cast (by omega : (N % D) * 2 ≤ D)
    rw [hres, hval, abs_le]
    constructor <;> linarith
  · by_cases h2 : D < 2 * (N % D)
    · have hres : roundHalfEvenDiv N D = N / D + 1 := by simp [roundHalfEvenDiv, h1, h2]
      have hhalf : 1 / 2 ≤ ((N % D : Nat) : ℚ) / D := by
        rw [div_le_div_iff (by norm_num) hDq, one_mul]
        exact_mod_cast (by omega : D ≤ (N % D) * 2)
      rw [hres, hval]
      push_cast
      rw [abs_le]
      constructor <;> linarith
    · have htie : ((N % D : Nat) : ℚ) / D = 1 / 2 := by
        rw [div_eq_div_iff hDq.ne' (by norm_num), one_mul]
        exact_mod_cast (by omega : (N % D) * 2 = D)
      by_cases h3 : (N / D) % 2 = 0
      · have hres : roundHalfEvenDiv N D = N / D := by simp [roundHalfEvenDiv, h1, h2, h3]
        rw [hres, hval, htie, abs_le]
        constructor <;> linarith
      · have hres : roundHalfEvenDiv N D = N / D + 1 := by
          simp [roundHalfEvenDiv, h1, h2, h3]
        rw [hres, hval, htie]
        push_cast
        rw [abs_le]
        constructor <;> linarith

theorem two_zpow_pos (e : Int) : (0:ℚ) < 2 ^ e := by positivity

theorem two_pow_toNat (a : Int) (h : 0 ≤ a) : (2:ℚ) ^ a.toNat = 2 ^ a := by
  rw [← zpow_natCast (2:ℚ) a.toNat, Int.toNat_of_nonneg h]

theorem Dyadic.val_add (x y : Dyadic) : (Dyadic.add x y).val = x.val + y.val := by
  unfold Dyadic.add Dyadic.val
  split
  · rename_i h
    push_cast
    rw [two_pow_toNat _ (by omega)]
    rw [add_mul, mul_assoc, ← zpow_add₀ (by norm_num : (2:ℚ) ≠ 0)]
    have he : y.e - x.e + x.e = y.e := by ring
    rw [he]
  · rename_i h
    push_cast
    rw [two_pow_toNat _ (by omega)]
    rw [add_mul, mul_assoc, ← zpow_add₀ (by norm_num : (2:ℚ) ≠ 0)]
    have he : x.e - y.e + y.e = x.e := by ring
    rw [he]

theorem Dyadic.val_neg (x : Dyadic) : (Dyadic.neg x).val = -x.val := by
  unfold Dyadic.neg Dyadic.val
  push_cast
  ring

theorem Dyadic.val_sub (x y : Dyadic) : (Dyadic.sub x y).val = x.val - y.val := by
  unfold Dyadic.sub
  rw [Dyadic.val_add, Dyadic.val_neg]
  ring

theorem Dyadic.val_mul (x y : Dyadic) : (Dyadic.mul x y).val = x.val * y.val := by
  unfold Dyadic.mul Dyadic.val
  push_cast
  rw [zpow_add₀ (by norm_num : (2:ℚ) ≠ 0)]
  ring

theorem Dyadic.val_pos_iff (x : Dyadic) : 0 < x.val ↔ 0 < x.m := by
  unfold Dyadic.val
  constructor
  · intro h
    by_contra hm
    push_neg at hm
    have hq : (x.m : ℚ) ≤ 0 := by exact_mod_cast hm
    nlinarith [two_zpow_pos x.e]
  · intro h
    exact mul_pos (by exact_mod_cast h) (two_zpow_pos x.e)

theorem Dyadic.val_eq_zero_iff (x : Dyadic) : x.val = 0 ↔ x.m = 0 := by
  unfold Dyadic.val
  constructor
  · intro h
    rcases mul_eq_zero.mp h with h | h
    · exact_mod_cast h
    · exact absurd h (ne_of_gt (two_zpow_pos x.e))
  · intro h
    rw [h]
    simp

theorem floor_natCast_div_natCast (a b : Nat) (hb : 0 < b) :
    ⌊(a : ℚ) / (b : ℚ)⌋ = (a / b : Nat) := by
  have hbq : (0:ℚ) < b := by exact_mod_cast hb
  rw [Int.floor_eq_iff]
  constructor
  · rw [le_div_iff hbq]
    push_cast
    exact_mod_cast Nat.div_mul_le_self a b
  · rw [div_lt_iff hbq]
    push_cast
    have h1 := Nat.div_add_mod a b
    have h2 := Nat.mod_lt a hb
    have h3 : a < (a / b + 1) * b := by
      calc a = b * (a / b) + a % b := h1.symm
        _ < b * (a / b) + b := by omega
        _ = (a / b + 1) * b := by ring
    exact_mod_cast h3

theorem roundPosDyadic_val_of_le (p m : Nat) (e : Int)
    (h : (natLog2 m : Int) + e - ((p - 1 : Nat) : Int) ≤ e) :
    (roundPosDyadic p m e).val = (m : ℚ) * 2 ^ e := by
  simp only [roundPosDyadic, Dyadic.val]
  split
  · push_cast
    rw [two_pow_toNat _ (by omega)]
    rw [mul_assoc, ← zpow_add₀ (by norm_num : (2:ℚ) ≠ 0)]
    have he : e - ((natLog2 m : Int) + e - ((p - 1 : Nat) : Int)) +
        ((natLog2 m : Int) + e - ((p - 1 : Nat) : Int)) = e := by ring
    rw [he]
  · rename_i hcond
    omega

theorem roundPosDyadic_err (p m : Nat) (e : Int) (hp : 1 ≤ p) (hm : 1 ≤ m) :
    |(roundPosDyadic p m e).val - (m : ℚ) * 2 ^ e| ≤ ((m : ℚ) * 2 ^ e) / 2 ^ (p : Int) := by
  have hlow : (2:ℚ) ^ ((natLog2 m : Int) + e) ≤ (m : ℚ) * 2 ^ e := by
    rw [zpow_add₀ (by norm_num : (2:ℚ) ≠ 0)]
    have h2 : (2:ℚ) ^ ((natLog2 m : Nat) : Int) ≤ (m:ℚ) := by
      rw [zpow_natCast]
      exact_mod_cast (natLog2_bounds m hm).1
    exact mul_le_mul_of_nonneg_right h2 (le_of_lt (two_zpow_pos e))
  have hvpos : (0:ℚ) < (m : ℚ) * 2 ^ e :=
    mul_pos (by exact_mod_cast hm) (two_zpow_pos e)
  rcases le_or_lt ((natLog2 m : Int) + e - ((p - 1 : Nat) : Int)) e with hle | hgt
  · rw [roundPosDyadic_val_of_le p m e hle]
    simp only [sub_self, abs_zero]
    positivity
  · simp only [roundPosDyadic, Dyadic.val]
    rw [if_neg (by omega)]
    set enew : Int := (natLog2 m : Int) + e - ((p - 1 : Nat) : Int) with henew
    set k : Nat := (enew - e).toNat with hk
    have hkpos : 0 < k := by omega
    have hkc : (k : Int) = enew - e := by omega
    have hD : (0:Nat) < 2 ^ k := by positivity
    have hDq : ((2 ^ k : Nat) : ℚ) = 2 ^ ((k : Nat) : Int) := by
      push_cast
      rw [zpow_natCast]
    have habs := roundHalfEvenDiv_abs m (2 ^ k) hD
    set R : ℚ := ((roundHalfEvenDiv m (2 ^ k) : Nat) : ℚ) with hR
    have hkey : ((m : ℚ) / ((2 ^ k : Nat) : ℚ)) * 2 ^ enew = (m : ℚ) * 2 ^ e := by
      rw [hDq, div_mul_eq_mul_div, div_eq_iff (by positivity)]
      rw [mul_assoc, ← zpow_add₀ (by norm_num : (2:ℚ) ≠ 0)]
      congr 2
      omega
    have hstep : |(R - (m : ℚ) / ((2 ^ k : Nat) : ℚ)) * 2 ^ enew| ≤ (1 / 2) * 2 ^ enew := by
      rw [abs_mul, abs_of_pos (two_zpow_pos enew)]
      exact mul_le_mul_of_nonneg_right habs (le_of_lt (two_zpow_pos enew))
    have hexpand : (R - (m : ℚ) / ((2 ^ k : Nat) : ℚ)) * 2 ^ enew =
        R * 2 ^ enew - (m : ℚ) * 2 ^ e := by
      rw [sub_mul, hkey]
    rw [hexpand] at hstep
    calc |R * 2 ^ enew - (m : ℚ) * 2 ^ e| ≤ (1 / 2) * 2 ^ enew := hstep
      _ = 2 ^ ((natLog2 m : Int) + e) * 2 ^ (-(p : Int)) := by
        have h1 : (1:ℚ) / 2 = 2 ^ (-1 : Int) := by
          rw [zpow_neg, zpow_one, one_div]
        rw [h1, ← zpow_add₀ (by norm_num : (2:ℚ) ≠ 0),
          ← zpow_add₀ (by norm_num : (2:ℚ) ≠ 0)]
        congr 1
        omega
      _ ≤ ((m : ℚ) * 2 ^ e) * 2 ^ (-(p : Int)) :=
        mul_le_mul_of_nonneg_right hlow (le_of_lt (two_zpow_pos _))
      _ = ((m : ℚ) * 2 ^ e) / 2 ^ (p : Int) := by
        rw [zpow_neg, div_eq_mul_inv]

theorem Dyadic.round_err (p : Nat) (hp : 1 ≤ p) (x : Dyadic) (hx : 0 < x.val) :
    |(Dyadic.round p x).val - x.val| ≤ x.val / 2 ^ (p : Int) := by
  have hm : 0 < x.m := (Dyadic.val_pos_iff x).mp hx
  unfold Dyadic.round
  rw [if_neg (by omega), if_pos hm]
  have h := roundPosDyadic_err p x.m.toNat x.e hp (by omega)
  have hmc : ((x.m.toNat : Nat) : ℚ) = (x.m : ℚ) := by
    exact_mod_cast Int.toNat_of_nonneg hm.le
  have hxv : ((x.m.toNat : Nat) : ℚ) * 2 ^ x.e = x.val := by
    unfold Dyadic.val
    rw [hmc]
  rw [hxv] at h
  exact h

theorem Dyadic.round_bounds (p : Nat) (hp : 1 ≤ p) (x : Dyadic) (hx : 0 < x.val) :
    x.val - x.val / 2 ^ (p : Int) ≤ (Dyadic.round p x).val ∧
    (Dyadic.round p x).val ≤ x.val + x.val / 2 ^ (p : Int) := by
  have h := abs_le.mp (Dyadic.round_err p hp x hx)
  constructor <;> linarith [h.1, h.2]

theorem Dyadic.round_pos (p : Nat) (hp : 1 ≤ p) (x : Dyadic) (hx : 0 < x.val) :
    0 < (Dyadic.round p x).val := by
  have hb := (Dyadic.round_bounds p hp x hx).1
  have h2 : (2:ℚ) ≤ 2 ^ (p : Int) := by
    calc (2:ℚ) = 2 ^ (1 : Int) := (zpow_one 2).symm
      _ ≤ 2 ^ (p : Int) := by
        apply zpow_le_zpow_right₀ (by norm_num) (by omega)
  have hhalf : x.val / 2 ^ (p : Int) ≤ x.val / 2 := by
    gcongr
  linarith

theorem dyadic_pos_rep (m' e : Int) (n : Nat) (hm : 0 < m')
    (hval : (m' : ℚ) * 2 ^ e = (n : ℚ)) :
    (0 ≤ e ∧ m'.toNat * 2 ^ e.toNat = n) ∨
    (e < 0 ∧ m'.toNat = n * 2 ^ (-e).toNat) := by
  rcases le_or_lt 0 e with he | he
  · left
    refine ⟨he, ?_⟩
    have hmc : ((m'.toNat : Nat) : ℚ) = (m' : ℚ) := by
      exact_mod_cast Int.toNat_of_nonneg hm.le
    have hq : ((m'.toNat * 2 ^ e.toNat : Nat) : ℚ) = (n : ℚ) := by
      push_cast
      rw [hmc, two_pow_toNat _ he]
      exact hval
    exact_mod_cast hq
  · right
    refine ⟨he, ?_⟩
    have h2 : (m' : ℚ) = (n : ℚ) * 2 ^ (-e) := by
      rw [← hval, mul_assoc, ← zpow_add₀ (by norm_num : (2:ℚ) ≠ 0)]
      simp
    have hmc : ((m'.toNat : Nat) : ℚ) = (m' : ℚ) := by
      exact_mod_cast Int.toNat_of_nonneg hm.le
    have hq : ((m'.toNat : Nat) : ℚ) = ((n * 2 ^ (-e).toNat : Nat) : ℚ) := by
      push_cast
      rw [hmc, two_pow_toNat _ (by omega)]
      exact h2
    exact_mod_cast hq

theorem round_val_natCast (p n : Nat) (hp : 1 ≤ p) (x : Dyadic)
    (hval : x.val = (n : ℚ)) (hn : n < 2 ^ p) :
    (Dyadic.round p x).val = (n : ℚ) := by
  rcases Nat.eq_zero_or_pos n with hn0 | hn0
  · subst hn0
    have hm : x.m = 0 := (Dyadic.val_eq_zero_iff x).mp (by simpa using hval)
    unfold Dyadic.round
    rw [if_pos hm]
    simp [Dyadic.val]
  · have hm : 0 < x.m := (Dyadic.val_pos_iff x).mp (by rw [hval]; exact_mod_cast hn0)
    unfold Dyadic.round
    rw [if_neg (by omega), if_pos hm]
    have hvx : (x.m : ℚ) * 2 ^ x.e = (n : ℚ) := hval
    have hmc : ((x.m.toNat : Nat) : ℚ) = (x.m : ℚ) := by
      exact_mod_cast Int.toNat_of_nonneg hm.le
    have hvM : ((x.m.toNat : Nat) : ℚ) * 2 ^ x.e = (n : ℚ) := by
      rw [hmc]
      exact hvx
    have hM1 : 1 ≤ x.m.toNat := by omega
    have hlogn : natLog2 n < p := natLog2_lt n p hn0 hn
    rcases dyadic_pos_rep x.m x.e n hm hvx with ⟨he, heq⟩ | ⟨he, heq⟩
    · have hMle : x.m.toNat ≤ n := by
        calc x.m.toNat = x.m.toNat * 1 := (Nat.mul_one _).symm
          _ ≤ x.m.toNat * 2 ^ x.e.toNat := Nat.mul_le_mul_left _ (Nat.one_le_two_pow)
          _ = n := heq
      have hlogM : natLog2 x.m.toNat < p :=
        natLog2_lt x.m.toNat p hM1 (by omega)
      rw [roundPosDyadic_val_of_le p x.m.toNat x.e (by omega)]
      exact hvM
    · set j : Nat := (-x.e).toNat with hj
      have hjc : (j : Int) = -x.e := by omega
      have hlogM : natLog2 x.m.toNat = natLog2 n + j := by
        rw [heq]
        exact natLog2_mul_pow n j hn0
      rcases le_or_lt ((natLog2 x.m.toNat : Int) + x.e - ((p - 1 : Nat) : Int)) x.e
        with hle | hgt
      · rw [roundPosDyadic_val_of_le p x.m.toNat x.e hle]
        exact hvM
      · simp only [roundPosDyadic, Dyadic.val]
        rw [if_neg (by omega)]
        dsimp only
        set enew : Int := (natLog2 x.m.toNat : Int) + x.e - ((p - 1 : Nat) : Int)
          with henew
        set k : Nat := (enew - x.e).toNat with hk
        have hkc : (k : Int) = enew - x.e := by omega
        have hkj : k ≤ j := by omega
        have hdvd : 2 ^ k ∣ x.m.toNat := by
          rw [heq]
          exact Dvd.dvd.mul_left (pow_dvd_pow 2 hkj) n
        rw [roundHalfEvenDiv_exact _ _ (by positivity) hdvd, Int.cast_natCast]
        have hcast : ((x.m.toNat / 2 ^ k : Nat) : ℚ) =
            ((x.m.toNat : Nat) : ℚ) / ((2 ^ k : Nat) : ℚ) :=
          Nat.cast_div hdvd (by positivity)
        rw [hcast]
        have hDq : ((2 ^ k : Nat) : ℚ) = 2 ^ ((k : Nat) : Int) := by
          push_cast
          rw [zpow_natCast]
        rw [hDq, div_mul_eq_mul_div, div_eq_iff (by positivity)]
        rw [← hvM, mul_assoc, ← zpow_add₀ (by norm_num : (2:ℚ) ≠ 0)]
        congr 2
        omega

theorem Dyadic.truncNat_eq_floor (x : Dyadic) (hx : 0 < x.m) :
    (Dyadic.truncNat x : Int) = ⌊x.val⌋ := by
  unfold Dyadic.truncNat Dyadic.val
  rw [if_neg (by omega)]
  split
  · rename_i he
    have hmc : ((x.m.toNat : Nat) : ℚ) = (x.m : ℚ) := by
      exact_mod_cast Int.toNat_of_nonneg hx.le
    have hq : (x.m : ℚ) * 2 ^ x.e = ((x.m.toNat * 2 ^ x.e.toNat : Nat) : ℚ) := by
      push_cast
      rw [hmc, two_pow_toNat _ he]
    rw [hq, Int.floor_natCast]
  · rename_i he
    have hj : (0:Int) ≤ -x.e := by omega
    have hmc : ((x.m.toNat : Nat) : ℚ) = (x.m : ℚ) := by
      exact_mod_cast Int.toNat_of_nonneg hx.le
    have hDq : ((2 ^ (-x.e).toNat : Nat) : ℚ) = 2 ^ (-x.e) := by
      push_cast
      rw [two_pow_toNat _ hj]
    have hq : (x.m : ℚ) * 2 ^ x.e =
        ((x.m.toNat : Nat) : ℚ) / ((2 ^ (-x.e).toNat : Nat) : ℚ) := by
      rw [hDq, hmc, eq_div_iff (by positivity)]
      rw [mul_assoc, ← zpow_add₀ (by norm_num : (2:ℚ) ≠ 0)]
      simp
    rw [hq, floor_natCast_div_natCast _ _ (by positivity)]

theorem Dyadic.truncNat_val_natCast (x : Dyadic) (n : Nat) (hval : x.val = (n : ℚ)) :
    Dyadic.truncNat x = n := by
  rcases Nat.eq_zero_or_pos n with h0 | h0
  · subst h0
    have hm : x.m = 0 := (Dyadic.val_eq_zero_iff x).mp (by simpa using hval)
    simp [Dyadic.truncNat, hm]
  · have hm : 0 < x.m := (Dyadic.val_pos_iff x).mp (by rw [hval]; exact_mod_cast h0)
    have h := Dyadic.truncNat_eq_floor x hm
    rw [hval, Int.floor_natCast] at h
    exact_mod_cast h

theorem ratLtPow2_iff (n d : Nat) (c : Int) (hd : 0 < d) :
    ratLtPow2 n d c = true ↔ (n : ℚ) / (d : ℚ) < 2 ^ c := by
  have hdq : (0:ℚ) < d := by exact_mod_cast hd
  unfold ratLtPow2
  split
  · rename_i hc
    simp only [decide_eq_true_eq]
    rw [div_lt_iff hdq]
    have hpow : ((d * 2 ^ c.toNat : Nat) : ℚ) = 2 ^ c * d := by
      push_cast
      rw [two_pow_toNat _ hc]
      ring
    constructor
    · intro h
      calc (n:ℚ) < ((d * 2 ^ c.toNat : Nat) : ℚ) := by exact_mod_cast h
        _ = 2 ^ c * d := hpow
    · intro h
      have hq : (n:ℚ) < ((d * 2 ^ c.toNat : Nat) : ℚ) := by rw [hpow]; exact h
      exact_mod_cast hq
  · rename_i hc
    simp only [decide_eq_true_eq]
    have hcc : (0:Int) ≤ -c := by omega
    have hpow : ((n * 2 ^ (-c).toNat : Nat) : ℚ) = (n:ℚ) * 2 ^ (-c) := by
      push_cast
      rw [two_pow_toNat _ hcc]
    rw [div_lt_iff hdq]
    have hself : (n:ℚ) * 2 ^ (-c) * 2 ^ c = n := by
      rw [mul_assoc, ← zpow_add₀ (by norm_num : (2:ℚ) ≠ 0)]
      simp
    constructor
    · intro h
      have hq2 : (n:ℚ) * 2 ^ (-c) < d := by
        rw [← hpow]
        exact_mod_cast h
      have hmul := mul_lt_mul_of_pos_right hq2 (two_zpow_pos c)
      rw [hself] at hmul
      rw [mul_comm ((2:ℚ) ^ c) (d:ℚ)]
      exact hmul
    · intro h
      have hmul := mul_lt_mul_of_pos_right h (two_zpow_pos (-c))
      have hd2 : (2:ℚ) ^ c * (d:ℚ) * 2 ^ (-c) = d := by
        rw [mul_comm ((2:ℚ) ^ c) (d:ℚ), mul_assoc,
          ← zpow_add₀ (by norm_num : (2:ℚ) ≠ 0)]
        simp
      rw [hd2] at hmul
      have hq : ((n * 2 ^ (-c).toNat : Nat) : ℚ) < (d:ℚ) := by
        rw [hpow]
        exact hmul
      exact_mod_cast hq

theorem ratFloorLog2_le (n d : Nat) (hn : 1 ≤ n) (hd : 1 ≤ d) :
    (2:ℚ) ^ ratFloorLog2 n d ≤ (n : ℚ) / (d : ℚ) := by
  have hdq : (0:ℚ) < d := by exact_mod_cast hd
  have hbn := natLog2_bounds n hn
  have hbd := natLog2_bounds d hd
  simp only [ratFloorLog2]
  split
  · rw [le_div_iff hdq]
    have h1 : (2:ℚ) ^ ((natLog2 n : Int) - (natLog2 d : Int) - 1) =
        2 ^ ((natLog2 n : Nat) : Int) / 2 ^ (((natLog2 d : Nat) : Int) + 1) := by
      rw [← zpow_sub₀ (by norm_num : (2:ℚ) ≠ 0)]
      congr 1
      ring
    rw [h1, div_mul_eq_mul_div, div_le_iff (two_zpow_pos _)]
    have h2 : (2:ℚ) ^ ((natLog2 n : Nat) : Int) = ((2 ^ natLog2 n : Nat) : ℚ) := by
      push_cast
      rw [zpow_natCast]
    have h3 : (2:ℚ) ^ (((natLog2 d : Nat) : Int) + 1) =
        ((2 ^ (natLog2 d + 1) : Nat) : ℚ) := by
      have hexp : ((natLog2 d : Nat) : Int) + 1 = ((natLog2 d + 1 : Nat) : Int) := by
        push_cast
        ring
      rw [hexp, zpow_natCast]
      norm_cast
    rw [h2, h3]
    have hmul : 2 ^ natLog2 n * d ≤ n * 2 ^ (natLog2 d + 1) :=
      Nat.mul_le_mul hbn.1 (le_of_lt hbd.2)
    exact_mod_cast hmul
  · rename_i hsplit
    have hfalse : ¬ ((n : ℚ) / (d : ℚ) <
        2 ^ ((natLog2 n : Int) - (natLog2 d : Int))) := by
      rw [← ratLtPow2_iff n d _ hd]
      simpa using hsplit
    exact le_of_not_lt hfalse

theorem roundRatPos_err (p n d : Nat) (hp : 1 ≤ p) (hn : 1 ≤ n) (hd : 1 ≤ d) :
    |(roundRatPos p n d).val - (n : ℚ) / d| ≤ ((n : ℚ) / d) / 2 ^ (p : Int) := by
  have hdq : (0:ℚ) < d := by exact_mod_cast hd
  have hlow := ratFloorLog2_le n d hn hd
  have hvpos : (0:ℚ) < (n : ℚ) / d := by positivity
  simp only [roundRatPos]
  split
  · rename_i he
    dsimp only [Dyadic.val]
    set e : Int := ratFloorLog2 n d - ((p - 1 : Nat) : Int) with hedef
    set D : Nat := d * 2 ^ e.toNat with hDdef
    have hDpos : 0 < D := by positivity
    have habs := roundHalfEvenDiv_abs n D hDpos
    set R : ℚ := ((roundHalfEvenDiv n D : Nat) : ℚ) with hR
    have hkey : ((n : ℚ) / ((D : Nat) : ℚ)) * 2 ^ e = (n : ℚ) / d := by
      have hDq : ((D : Nat) : ℚ) = (d : ℚ) * 2 ^ e := by
        rw [hDdef]
        push_cast
        rw [two_pow_toNat _ he]
      rw [hDq, div_mul_eq_mul_div, div_eq_div_iff (by positivity) hdq.ne']
      ring
    have hstep : |(R - (n : ℚ) / ((D : Nat) : ℚ)) * 2 ^ e| ≤ (1 / 2) * 2 ^ e := by
      rw [abs_mul, abs_of_pos (two_zpow_pos e)]
      exact mul_le_mul_of_nonneg_right habs (le_of_lt (two_zpow_pos e))
    have hexpand : (R - (n : ℚ) / ((D : Nat) : ℚ)) * 2 ^ e =
        R * 2 ^ e - (n : ℚ) / d := by
      rw [sub_mul, hkey]
    rw [hexpand] at hstep
    calc |R * 2 ^ e - (n : ℚ) / d| ≤ (1 / 2) * 2 ^ e := hstep
      _ = 2 ^ ratFloorLog2 n d * 2 ^ (-(p : Int)) := by
        have h1 : (1:ℚ) / 2 = 2 ^ (-1 : Int) := by
          rw [zpow_neg, zpow_one, one_div]
        rw [h1, ← zpow_add₀ (by norm_num : (2:ℚ) ≠ 0),
          ← zpow_add₀ (by norm_num : (2:ℚ) ≠ 0)]
        congr 1
        omega
      _ ≤ ((n : ℚ) / d) * 2 ^ (-(p : Int)) :=
        mul_le_mul_of_nonneg_right hlow (le_of_lt (two_zpow_pos _))
      _ = ((n : ℚ) / d) / 2 ^ (p : Int) := by
        rw [zpow_neg]
        ring
  · rename_i he
    dsimp only [Dyadic.val]
    set e : Int := ratFloorLog2 n d - ((p - 1 : Nat) : Int) with hedef
    set N : Nat := n * 2 ^ (-e).toNat with hNdef
    have habs := roundHalfEvenDiv_abs N d hd
    set R : ℚ := ((roundHalfEvenDiv N d : Nat) : ℚ) with hR
    have hkey : (((N : Nat) : ℚ) / (d : ℚ)) * 2 ^ e = (n : ℚ) / d := by
      have hNq : ((N : Nat) : ℚ) = (n : ℚ) * 2 ^ (-e) := by
        rw [hNdef]
        push_cast
        rw [two_pow_toNat _ (by omega)]
      have hc : (n:ℚ) * 2 ^ (-e) * 2 ^ e = n := by
        rw [mul_assoc, ← zpow_add₀ (by norm_num : (2:ℚ) ≠ 0)]
        simp
      rw [hNq, div_mul_eq_mul_div, div_eq_div_iff hdq.ne' hdq.ne', hc]
    have hstep : |(R - ((N : Nat) : ℚ) / (d : ℚ)) * 2 ^ e| ≤ (1 / 2) * 2 ^ e := by
      rw [abs_mul, abs_of_pos (two_zpow_pos e)]
      exact mul_le_mul_of_nonneg_right habs (le_of_lt (two_zpow_pos e))
    have hexpand : (R - ((N : Nat) : ℚ) / (d : ℚ)) * 2 ^ e =
        R * 2 ^ e - (n : ℚ) / d := by
      rw [sub_mul, hkey]
    rw [hexpand] at hstep
    calc |R * 2 ^ e - (n : ℚ) / d| ≤ (1 / 2) * 2 ^ e := hstep
      _ = 2 ^ ratFloorLog2 n d * 2 ^ (-(p : Int)) := by
        have h1 : (1:ℚ) / 2 = 2 ^ (-1 : Int) := by
          rw [zpow_neg, zpow_one, one_div]
        rw [h1, ← zpow_add₀ (by norm_num : (2:ℚ) ≠ 0),
          ← zpow_add₀ (by norm_num : (2:ℚ) ≠ 0)]
        congr 1
        omega
      _ ≤ ((n : ℚ) / d) * 2 ^ (-(p : Int)) :=
        mul_le_mul_of_nonneg_right hlow (le_of_lt (two_zpow_pos _))
      _ = ((n : ℚ) / d) / 2 ^ (p : Int) := by
        rw [zpow_neg]
        ring

theorem roundRatPos_bounds (p n d : Nat) (hp : 1 ≤ p) (hn : 1 ≤ n) (hd : 1 ≤ d) :
    (n : ℚ) / d - ((n : ℚ) / d) / 2 ^ (p : Int) ≤ (roundRatPos p n d).val ∧
    (roundRatPos p n d).val ≤ (n : ℚ) / d + ((n : ℚ) / d) / 2 ^ (p : Int) := by
  have h := abs_le.mp (roundRatPos_err p n d hp hn hd)
  constructor <;> linarith [h.1, h.2]

theorem roundRatPos_val_pos (p n d : Nat) (hp : 1 ≤ p) (hn : 1 ≤ n) (hd : 1 ≤ d) :
    0 < (roundRatPos p n d).val := by
  have hb := (roundRatPos_bounds p n d hp hn hd).1
  have hvpos : (0:ℚ) < (n : ℚ) / d := by positivity
  have h2 : (2:ℚ) ≤ 2 ^ (p : Int) := by
    calc (2:ℚ) = 2 ^ (1 : Int) := (zpow_one 2).symm
      _ ≤ 2 ^ (p : Int) := by
        apply zpow_le_zpow_right₀ (by norm_num) (by omega)
  have hhalf : ((n : ℚ) / d) / 2 ^ (p : Int) ≤ ((n : ℚ) / d) / 2 := by
    gcongr
  linarith

theorem roundHalfEvenDiv_zero (D : Nat) : roundHalfEvenDiv 0 D = 0 := by
  unfold roundHalfEvenDiv
  simp

theorem roundRatPos_zero_val (p d : Nat) : (roundRatPos p 0 d).val = 0 := by
  simp only [roundRatPos]
  split <;> simp [Dyadic.val, roundHalfEvenDiv_zero, Nat.zero_mul]

theorem roundRatPos_self_val (p d : Nat) (hp : 1 ≤ p) (hd : 1 ≤ d) :
    (roundRatPos p d d).val = 1 := by
  have hL : ratFloorLog2 d d = 0 := by
    unfold ratFloorLog2
    have hlt : ratLtPow2 d d 0 = false := by
      unfold ratLtPow2
      simp
    simp [hlt]
  simp only [roundRatPos]
  rw [hL]
  split
  · rename_i he
    have hp1 : (p - 1 : Nat) = 0 := by omega
    unfold Dyadic.val
    dsimp only
    rw [hp1]
    norm_num [roundHalfEvenDiv_exact d d (by omega) dvd_rfl,
      Nat.div_self (show 0 < d by omega)]
  · rename_i he
    unfold Dyadic.val
    dsimp only
    rw [roundHalfEvenDiv_exact _ _ (by omega) (dvd_mul_right d _)]
    rw [Nat.mul_div_cancel_left _ (by omega)]
    push_cast
    rw [two_pow_toNat _ (by omega), ← zpow_add₀ (by norm_num : (2:ℚ) ≠ 0)]
    have hz : -(0 - ((p - 1 : Nat) : Int)) + (0 - ((p - 1 : Nat) : Int)) = 0 := by ring
    rw [hz, zpow_zero]

theorem dyadic_one_val : (⟨1, 0⟩ : Dyadic).val = ((1 : Nat) : ℚ) := by
  simp [Dyadic.val]

theorem dyadic_natCast_val (n : Nat) : (⟨(n : Int), 0⟩ : Dyadic).val = (n : ℚ) := by
  simp [Dyadic.val]

theorem round_zero_of_val_zero (p : Nat) (hp : 1 ≤ p) (x : Dyadic) (hx : x.val = 0) :
    (Dyadic.round p x).val = 0 := by
  have h := round_val_natCast p 0 hp x (by simpa using hx) (by positivity)
  simpa using h

theorem one_lt_two_pow_of_pos (p : Nat) (hp : 1 ≤ p) : 1 < 2 ^ p := by
  calc (1:Nat) < 2 ^ 1 := by norm_num
    _ ≤ 2 ^ p := Nat.pow_le_pow_right (by norm_num) hp

theorem round_one_of_val_one (p : Nat) (hp : 1 ≤ p) (x : Dyadic) (hx : x.val = 1) :
    (Dyadic.round p x).val = 1 := by
  have h := round_val_natCast p 1 hp x (by simpa using hx) (one_lt_two_pow_of_pos p hp)
  simpa using h

theorem gradientChannelFl_zero (a b h : Nat) (ha : a < 2 ^ 24) :
    gradientChannelFl a b h 0 = a := by
  simp only [gradientChannelFl]
  refine Dyadic.truncNat_val_natCast _ a ?_
  refine round_val_natCast 24 a (by norm_num) _ ?_ ha
  rw [Dyadic.val_add]
  have ht : (roundRatPos 53 0 (gradientDenom h)).val = 0 := roundRatPos_zero_val 53 _
  have homt : (Dyadic.round 53 (Dyadic.sub ⟨1, 0⟩
      (roundRatPos 53 0 (gradientDenom h)))).val = 1 := by
    apply round_one_of_val_one 53 (by norm_num)
    rw [Dyadic.val_sub, ht, dyadic_one_val]
    norm_num
  have h1 : (Dyadic.round 24 (Dyadic.mul
      (Dyadic.round 24 (Dyadic.round 53 (Dyadic.sub ⟨1, 0⟩
        (roundRatPos 53 0 (gradientDenom h)))))
      (Dyadic.round 24 ⟨(a : Int), 0⟩))).val = (a : ℚ) := by
    refine round_val_natCast 24 a (by norm_num) _ ?_ ha
    rw [Dyadic.val_mul]
    have hin : (Dyadic.round 24 (Dyadic.round 53 (Dyadic.sub ⟨1, 0⟩
        (roundRatPos 53 0 (gradientDenom h))))).val = 1 :=
      round_one_of_val_one 24 (by norm_num) _ homt
    have hA : (Dyadic.round 24 (⟨(a : Int), 0⟩ : Dyadic)).val = (a : ℚ) :=
      round_val_natCast 24 a (by norm_num) _ (dyadic_natCast_val a) ha
    rw [hin, hA, one_mul]
  have h2 : (Dyadic.round 24 (Dyadic.mul
      (Dyadic.round 24 (roundRatPos 53 0 (gradientDenom h)))
      (Dyadic.round 24 ⟨(b : Int), 0⟩))).val = 0 := by
    apply round_zero_of_val_zero 24 (by norm_num)
    rw [Dyadic.val_mul]
    have hin : (Dyadic.round 24 (roundRatPos 53 0 (gradientDenom h))).val = 0 :=
      round_zero_of_val_zero 24 (by norm_num) _ ht
    rw [hin, zero_mul]
  rw [h1, h2, add_zero]

theorem gradientChannelFl_last (a b h : Nat) (hb : b < 2 ^ 24) (hh : 2 ≤ h) :
    gradientChannelFl a b h (h - 1) = b := by
  have hden : gradientDenom h = h - 1 := by
    unfold gradientDenom
    omega
  simp only [gradientChannelFl, hden]
  have hd1 : 1 ≤ h - 1 := by omega
  have ht : (roundRatPos 53 (h - 1) (h - 1)).val = 1 :=
    roundRatPos_self_val 53 (h - 1) (by norm_num) hd1
  refine Dyadic.truncNat_val_natCast _ b ?_
  refine round_val_natCast 24 b (by norm_num) _ ?_ hb
  rw [Dyadic.val_add]
  have homt : (Dyadic.round 53 (Dyadic.sub ⟨1, 0⟩
      (roundRatPos 53 (h - 1) (h - 1)))).val = 0 := by
    apply round_zero_of_val_zero 53 (by norm_num)
    rw [Dyadic.val_sub, ht, dyadic_one_val]
    norm_num
  have h1 : (Dyadic.round 24 (Dyadic.mul
      (Dyadic.round 24 (Dyadic.round 53 (Dyadic.sub ⟨1, 0⟩
        (roundRatPos 53 (h - 1) (h - 1)))))
      (Dyadic.round 24 ⟨(a : Int), 0⟩))).val = 0 := by
    apply round_zero_of_val_zero 24 (by norm_num)
    rw [Dyadic.val_mul]
    have hin : (Dyadic.round 24 (Dyadic.round 53 (Dyadic.sub ⟨1, 0⟩
        (roundRatPos 53 (h - 1) (h - 1))))).val = 0 :=
      round_zero_of_val_zero 24 (by norm_num) _ homt
    rw [hin, zero_mul]
  have h2 : (Dyadic.round 24 (Dyadic.mul
      (Dyadic.round 24 (roundRatPos 53 (h - 1) (h - 1)))
      (Dyadic.round 24 ⟨(b : Int), 0⟩))).val = (b : ℚ) := by
    refine round_val_natCast 24 b (by norm_num) _ ?_ hb
    rw [Dyadic.val_mul]
    have hin : (Dyadic.round 24 (roundRatPos 53 (h - 1) (h - 1))).val = 1 :=
      round_one_of_val_one 24 (by norm_num) _ ht
    have hB : (Dyadic.round 24 (⟨(b : Int), 0⟩ : Dyadic)).val = (b : ℚ) :=
      round_val_natCast 24 b (by norm_num) _ (dyadic_natCast_val b) hb
    rw [hin, hB, one_mul]
  rw [h1, h2, zero_add]

/-- At height 1 (the domain of the C9 theorem) the bit-accurate float32
gradient and its exact-rational idealization coincide. -/
theorem gradientChannelFl_height_one (a b : Nat) (ha : a < 256) :
    gradientChannelFl a b 1 0 = gradientChannel a b 1 0 := by
  rw [gradientChannelFl_zero a b 1 (lt_trans ha (by norm_num)),
    gradientChannel_zero]

/-! ## C2: gradient endpoints and monotonicity -/

/-- C2 counterexample: in the float32 arithmetic the program actually
performs (lines 55-58), the default colors at height 101 give a blue and
alpha channel that is 255 at row 0, dips to 254 at row 4, and is back to
255 at row 100, so the channels of the generated image do not vary
monotonically from row to row. -/
theorem gradient_channels_not_monotone :
    ((generate_linkedin_gradient_background_fl 1 101 top_color_default
        bottom_color_default).pix 0 0).b = 255 ∧
    ((generate_linkedin_gradient_background_fl 1 101 top_color_default
        bottom_color_default).pix 4 0).b = 254 ∧
    ((generate_linkedin_gradient_background_fl 1 101 top_color_default
        bottom_color_default).pix 100 0).b = 255 ∧
    ¬ (∀ r1 r2 : Nat, r1 ≤ r2 → r2 < 101 →
        monotoneBetween top_color_default.b bottom_color_default.b
          (((generate_linkedin_gradient_background_fl 1 101 top_color_default
              bottom_color_default).pix r1 0).b)
          (((generate_linkedin_gradient_background_fl 1 101 top_color_default
              bottom_color_default).pix r2 0).b)) := by
  refine ⟨by decide, by decide, by decide, ?_⟩
  intro hmono
  have h04 := (hmono 0 4 (by norm_num) (by norm_num)).1 (by decide)
  exact absurd h04 (by decide)

/-- C2 (amended): for every width ≥ 1, height ≥ 2 and 8-bit colors, the
image the program generates (bit-accurate float32 arithmetic) has row 0
exactly the top color and row height-1 exactly the bottom color, both
with alpha 255; and the exact two-stop interpolation the loop
approximates is monotone per channel between any two rows, in the
direction of the endpoint colors. The program's float32 channel values
themselves are not monotone between rows
(they can dip one count below both endpoints, as at height 101). -/
theorem gradient_float_endpoints_and_ideal_monotone
    (w h : Nat) (top bottom : RGB) (hw : 1 ≤ w) (hh : 2 ≤ h)
    (htr : top.r < 256) (htg : top.g < 256) (htb : top.b < 256)
    (hbr : bottom.r < 256) (hbg : bottom.g < 256) (hbb : bottom.b < 256) :
    (∀ col, (generate_linkedin_gradient_background_fl w h top bottom).pix 0 col =
        ⟨top.r, top.g, top.b, 255⟩) ∧
    (∀ col, (generate_linkedin_gradient_background_fl w h top bottom).pix (h - 1) col =
        ⟨bottom.r, bottom.g, bottom.b, 255⟩) ∧
    (∀ r1 r2 : Nat, r1 ≤ r2 → r2 < h →
      monotoneBetween top.r bottom.r (gradientChannel top.r bottom.r h r1)
        (gradientChannel top.r bottom.r h r2) ∧
      monotoneBetween top.g bottom.g (gradientChannel top.g bottom.g h r1)
        (gradientChannel top.g bottom.g h r2) ∧
      monotoneBetween top.b bottom.b (gradientChannel top.b bottom.b h r1)
        (gradientChannel top.b bottom.b h r2)) := by
  refine ⟨fun col => ?_, fun col => ?_, fun r1 r2 h12 h2 => ?_⟩
  · show RGBA.mk _ _ _ _ = _
    rw [gradientChannelFl_zero _ _ _ (lt_trans htr (by norm_num)),
      gradientChannelFl_zero _ _ _ (lt_trans htg (by norm_num)),
      gradientChannelFl_zero _ _ _ (lt_trans htb (by norm_num)),
      gradientChannelFl_zero _ _ _ (by norm_num)]
  · show RGBA.mk _ _ _ _ = _
    rw [gradientChannelFl_last _ _ _ (lt_trans hbr (by norm_num)) hh,
      gradientChannelFl_last _ _ _ (lt_trans hbg (by norm_num)) hh,
      gradientChannelFl_last _ _ _ (lt_trans hbb (by norm_num)) hh,
      gradientChannelFl_last _ _ _ (by norm_num) hh]
  · exact ⟨⟨fun hab => gradientChannel_mono_of_le _ _ _ _ _ h12 h2 hab,
        fun hba => gradientChannel_anti_of_ge _ _ _ _ _ h12 h2 hba⟩,
      ⟨fun hab => gradientChannel_mono_of_le _ _ _ _ _ h12 h2 hab,
        fun hba => gradientChannel_anti_of_ge _ _ _ _ _ h12 h2 hba⟩,
      ⟨fun hab => gradientChannel_mono_of_le _ _ _ _ _ h12 h2 hab,
        fun hba => gradientChannel_anti_of_ge _ _ _ _ _ h12 h2 hba⟩⟩

theorem gradient_float_endpoints_and_ideal_monotone_witness :
    (generate_linkedin_gradient_background_fl 1 2 top_color_default
        bottom_color_default).pix 0 0 = ⟨234, 243, 255, 255⟩ ∧
    (generate_linkedin_gradient_background_fl 1 2 top_color_default
        bottom_color_default).pix 1 0 = ⟨191, 215, 255, 255⟩ :=
  ⟨(gradient_float_endpoints_and_ideal_monotone 1 2 top_color_default
      bottom_color_default (by norm_num) (by norm_num) (by decide) (by decide)
      (by decide) (by decide) (by decide) (by decide)).1 0,
   (gradient_float_endpoints_and_ideal_monotone 1 2 top_color_default
      bottom_color_default (by norm_num) (by norm_num) (by decide) (by decide)
      (by decide) (by decide) (by decide) (by decide)).2.1 0⟩

/-! ## C7: resize targets -/

/-- If the value of a dyadic M is within relative error 2^-53 of a
nonnegative rational B bounded by 2^50, then truncating the 53-bit
rounding of M lands within one of the floor of B. -/
theorem truncNat_round53_near (M : Dyadic) (B : ℚ) (fl : Nat)
    (hMpos : 0 < M.val) (hB50 : B ≤ 1125899906842624)
    (hlo : B - B / 9007199254740992 ≤ M.val)
    (hhi : M.val ≤ B + B / 9007199254740992)
    (hfl : ⌊B⌋ = (fl : Int)) :
    fl - 1 ≤ Dyadic.truncNat (Dyadic.round 53 M) ∧
    Dyadic.truncNat (Dyadic.round 53 M) ≤ fl + 1 := by
  have hPpos := Dyadic.round_pos 53 (by norm_num) M hMpos
  have hPerr := Dyadic.round_err 53 (by norm_num) M hMpos
  have hpow : (2:ℚ) ^ ((53 : Nat) : Int) = 9007199254740992 := by
    rw [zpow_natCast]; norm_num
  rw [hpow] at hPerr
  have hP := abs_le.mp hPerr
  have hPhi : (Dyadic.round 53 M).val ≤ B + 1/2 := by
    linarith [hP.2, hhi, hB50]
  have hPlo : B - 1/2 ≤ (Dyadic.round 53 M).val := by
    linarith [hP.1, hlo, hhi, hB50]
  have hPm : 0 < (Dyadic.round 53 M).m := (Dyadic.val_pos_iff _).mp hPpos
  have htr := Dyadic.truncNat_eq_floor _ hPm
  have hBlt : B < (fl : ℚ) + 1 := by
    have h := Int.lt_floor_add_one B
    rw [hfl] at h
    exact_mod_cast h
  have hBge : (fl : ℚ) ≤ B := by
    have h := Int.floor_le B
    rw [hfl] at h
    exact_mod_cast h
  have hup : ⌊(Dyadic.round 53 M).val⌋ < (fl : Int) + 2 := by
    rw [Int.floor_lt]
    push_cast
    linarith
  have hdn : (fl : Int) - 1 ≤ ⌊(Dyadic.round 53 M).val⌋ := by
    rw [Int.le_floor]
    push_cast
    linarith
  omega

/-- The double-precision derived dimension of lines 207-208 is within one
of the exact integer floor other * req / orig (for dimensions up to
2^50, far beyond any image size). -/
theorem derivedDim_within_one (orig other req : Nat)
    (horig : 1 ≤ orig) (hother : 1 ≤ other) (hreq : 1 ≤ req)
    (hb : other * req ≤ 2 ^ 50 * orig) (hs : other ≤ 2 ^ 50) :
    other * req / orig - 1 ≤ derivedDim orig other req ∧
    derivedDim orig other req ≤ other * req / orig + 1 := by
  have horq : (0:ℚ) < (orig:ℚ) := by exact_mod_cast horig
  have hoth0 : (0:ℚ) ≤ (other:ℚ) := by positivity
  have hO : (Dyadic.round 53 (⟨(other : Int), 0⟩ : Dyadic)).val = (other : ℚ) :=
    round_val_natCast 53 other (by norm_num) _ (dyadic_natCast_val other)
      (lt_of_le_of_lt hs (by norm_num))
  have hTpos : 0 < (roundRatPos 53 req orig).val :=
    roundRatPos_val_pos 53 req orig (by norm_num) hreq horig
  have hTerr := roundRatPos_err 53 req orig (by norm_num) hreq horig
  have hpow : (2:ℚ) ^ ((53 : Nat) : Int) = 9007199254740992 := by
    rw [zpow_natCast]; norm_num
  rw [hpow] at hTerr
  have hT := abs_le.mp hTerr
  have hThi : (roundRatPos 53 req orig).val ≤
      (req:ℚ)/orig + ((req:ℚ)/orig) / 9007199254740992 := by
    linarith [hT.2]
  have hTlo : (req:ℚ)/orig - ((req:ℚ)/orig) / 9007199254740992 ≤
      (roundRatPos 53 req orig).val := by
    linarith [hT.1]
  have hMval : (Dyadic.mul (Dyadic.round 53 (⟨(other : Int), 0⟩ : Dyadic))
      (roundRatPos 53 req orig)).val = (other : ℚ) * (roundRatPos 53 req orig).val := by
    rw [Dyadic.val_mul, hO]
  have hMpos : 0 < (Dyadic.mul (Dyadic.round 53 (⟨(other : Int), 0⟩ : Dyadic))
      (roundRatPos 53 req orig)).val := by
    rw [hMval]
    have h1 : (0:ℚ) < (other:ℚ) := by exact_mod_cast hother
    exact mul_pos h1 hTpos
  have hb' : other * req ≤ 1125899906842624 * orig := by
    have h : (2:Nat) ^ 50 = 1125899906842624 := by norm_num
    rw [h] at hb
    exact hb
  have hB50 : (other:ℚ) * ((req:ℚ)/orig) ≤ 1125899906842624 := by
    rw [← mul_div_assoc, div_le_iff horq]
    exact_mod_cast hb'
  have hMhi : (Dyadic.mul (Dyadic.round 53 (⟨(other : Int), 0⟩ : Dyadic))
      (roundRatPos 53 req orig)).val ≤ (other:ℚ) * ((req:ℚ)/orig)
      + ((other:ℚ) * ((req:ℚ)/orig)) / 9007199254740992 := by
    rw [hMval]
    calc (other:ℚ) * (roundRatPos 53 req orig).val
        ≤ (other:ℚ) * ((req:ℚ)/orig + ((req:ℚ)/orig) / 9007199254740992) :=
          mul_le_mul_of_nonneg_left hThi hoth0
      _ = (other:ℚ) * ((req:ℚ)/orig)
          + ((other:ℚ) * ((req:ℚ)/orig)) / 9007199254740992 := by ring
  have hMlo : (other:ℚ) * ((req:ℚ)/orig)
      - ((other:ℚ) * ((req:ℚ)/orig)) / 9007199254740992 ≤
      (Dyadic.mul (Dyadic.round 53 (⟨(other : Int), 0⟩ : Dyadic))
        (roundRatPos 53 req orig)).val := by
    rw [hMval]
    calc (other:ℚ) * ((req:ℚ)/orig)
          - ((other:ℚ) * ((req:ℚ)/orig)) / 9007199254740992
        = (other:ℚ) * ((req:ℚ)/orig - ((req:ℚ)/orig) / 9007199254740992) := by ring
      _ ≤ (other:ℚ) * (roundRatPos 53 req orig).val :=
          mul_le_mul_of_nonneg_left hTlo hoth0
  have hfl : ⌊(other:ℚ) * ((req:ℚ)/orig)⌋ = ((other * req / orig : Nat) : Int) := by
    rw [← mul_div_assoc]
    have hcast : (other:ℚ) * (req:ℚ) = ((other * req : Nat) : ℚ) := by
      push_cast
      ring
    rw [hcast, floor_natCast_div_natCast _ _ horig]
  have hDD : derivedDim orig other req =
      Dyadic.truncNat (Dyadic.round 53 (Dyadic.mul
        (Dyadic.round 53 ⟨(other : Int), 0⟩) (roundRatPos 53 req orig))) := rfl
  rw [hDD]
  exact truncNat_round53_near _ _ _ hMpos hB50 hMlo hMhi hfl

set_option maxRecDepth 8192 in
/-- C7 counterexample: for a 49 by 49 original with --width 1, the
double-precision computation int(49 * (1 / 49)) of line 208 yields
target height 0 (the product rounds to just below 1), while the exact
proportional floor 49 * 1 / 49 is 1: the program's derived dimension is
not the exact floor. -/
theorem resize_derived_height_zero :
    resizeTarget 49 49 (some 1) none = some (1, 0) ∧ 49 * 1 / 49 = 1 := by
  decide

/-- C7 (amended): when only --width (nonzero) is given, the target is
(width, derived height) where the derived height of line 208 is the
double-precision int(origH * (width / origW)); it is within one of the
exact proportional floor origH * width / origW (for dimensions up to
2^50), but not always equal to it (resize_derived_height_zero);
symmetrically when only --height is given. -/
theorem resize_targets_within_one (origW origH w ht : Nat)
    (hW : 1 ≤ origW) (hH : 1 ≤ origH) (hw1 : 1 ≤ w) (hh1 : 1 ≤ ht)
    (hbw : origH * w ≤ 2 ^ 50 * origW) (hsH : origH ≤ 2 ^ 50)
    (hbh : origW * ht ≤ 2 ^ 50 * origH) (hsW : origW ≤ 2 ^ 50) :
    resizeTarget origW origH (some w) none = some (w, derivedDim origW origH w) ∧
    origH * w / origW - 1 ≤ derivedDim origW origH w ∧
    derivedDim origW origH w ≤ origH * w / origW + 1 ∧
    resizeTarget origW origH none (some ht) = some (derivedDim origH origW ht, ht) ∧
    origW * ht / origH - 1 ≤ derivedDim origH origW ht ∧
    derivedDim origH origW ht ≤ origW * ht / origH + 1 := by
  have h1 := derivedDim_within_one origW origH w hW hH hw1 hbw hsH
  have h2 := derivedDim_within_one origH origW ht hH hW hh1 hbh hsW
  have hw0 : w ≠ 0 := by omega
  have hht0 : ht ≠ 0 := by omega
  refine ⟨?_, h1.1, h1.2, ?_, h2.1, h2.2⟩
  · simp [resizeTarget, pyTruthy, pyOrNat, hw0]
  · simp [resizeTarget, pyTruthy, pyOrNat, hht0]

set_option maxRecDepth 8192 in
theorem resize_targets_within_one_witness :
    (resizeTarget 100 50 (some 200) none = some (200, derivedDim 100 50 200) ∧
     50 * 200 / 100 - 1 ≤ derivedDim 100 50 200 ∧
     derivedDim 100 50 200 ≤ 50 * 200 / 100 + 1 ∧
     resizeTarget 100 50 none (some 25) = some (derivedDim 50 100 25, 25) ∧
     100 * 25 / 50 - 1 ≤ derivedDim 50 100 25 ∧
     derivedDim 50 100 25 ≤ 100 * 25 / 50 + 1) ∧
    derivedDim 100 50 200 = 100 :=
  ⟨resize_targets_within_one 100 50 200 25 (by norm_num) (by norm_num)
      (by norm_num) (by norm_num) (by norm_num) (by norm_num) (by norm_num)
      (by norm_num),
   by decide⟩
